import Mathlib

/-!
Verification development for the `cuco::static_reduction_map` concurrent
reduction hash map and its supporting utilities.

The probing-index arithmetic, the shipped reduction operators
(`reduce_add`, `reduce_sub`, `reduce_min`, `reduce_max`, `custom_op`), the
exponential-backoff retry loop and the byte-wise/vectorized `memcmp`
helpers are embedded directly from the source.  The bodies of the map's
`insert` / `find` / `contains` protocols live in
`cuco/detail/static_reduction_map.inl`, which is not part of the sources
available here (only their declarations and documentation are); those
protocols are modelled from the specification, as marked on each
definition.
-/

namespace Cuco

/-- Number of values of a 32-bit machine word; unsigned 32-bit arithmetic
in the source is modelled as arithmetic modulo this constant. -/
def two32 : Nat := 4294967296

/-! ### Probe sequence (embedded from `device_view_base`, part_001) -/

/-- Scalar `initial_slot` (part_001 line 487): `slots_[hash(k) % capacity_]`.
`hk` is the hash value, `c` the capacity; the result is the slot index. -/
def initialSlotIdx (hk c : Nat) : Nat := hk % c

/-- Cooperative-group `initial_slot` (part_001 line 519):
`slots_[(hash(k) + g.thread_rank()) % capacity_]`.  Both `hash(k)` and
`thread_rank()` are 32-bit unsigned values, so the sum wraps modulo 2^32
before the reduction modulo the capacity. -/
def initialSlotIdxCG (hk r c : Nat) : Nat := ((hk + r) % two32) % c

/-- Scalar `next_slot` (part_001 line 548):
`(++s < end()) ? s : begin_slot()`, expressed on slot indices. -/
def nextSlotIdx (i c : Nat) : Nat := if i + 1 < c then i + 1 else 0

/-- Cooperative-group `next_slot` (part_001 lines 577-578):
`uint32_t index = s - slots_; return &slots_[(index + g.size()) % capacity_];`.
The index is truncated to 32 bits and the 32-bit addition wraps. -/
def nextSlotIdxCG (i g c : Nat) : Nat := ((i % two32 + g) % two32) % c

/-! ### Reduction operators (embedded from part_001 lines 56-158)

The value type is instantiated at `uint32_t`; slot values are natural
numbers below `two32`.  Each atomic fetch-and-combine primitive maps the
value held by the slot and the incoming value to the pair
(value returned to the caller, new slot value); `cuda::atomic` fetch
operations return the value held immediately before the modification. -/

/-- Atomic `fetch_add` on a 32-bit slot: returns the previous value and
stores the wrapped sum. -/
def atomicFetchAdd (slot v : Nat) : Nat × Nat := (slot, (slot + v) % two32)

/-- Atomic `fetch_sub` on a 32-bit slot: returns the previous value and
stores the wrapped difference. -/
def atomicFetchSub (slot v : Nat) : Nat × Nat :=
  (slot, (slot + (two32 - v % two32)) % two32)

/-- Atomic `fetch_min`: returns the previous value and stores the minimum. -/
def atomicFetchMin (slot v : Nat) : Nat × Nat := (slot, min slot v)

/-- Atomic `fetch_max`: returns the previous value and stores the maximum. -/
def atomicFetchMax (slot v : Nat) : Nat × Nat := (slot, max slot v)

/-- Reduction operator policy: an identity element and the binary combine
the operator performs on the slot (the data carried by `reduce_add` and
friends: `identity` and the semantics of their atomic `apply`). -/
structure ReductionOp (V : Type) where
  identity : V
  comb : V → V → V

/-- `reduce_add<uint32_t>` (part_001 lines 56-66): identity `0`,
combine is 32-bit wrapping addition. -/
def reduceAdd : ReductionOp Nat :=
  { identity := 0, comb := fun a b => (a + b) % two32 }

/-- `reduce_sub<uint32_t>` (part_001 lines 74-84): identity `0`,
combine is 32-bit wrapping subtraction. -/
def reduceSub : ReductionOp Nat :=
  { identity := 0, comb := fun a b => (a + (two32 - b % two32)) % two32 }

/-- `reduce_min<uint32_t>` (part_001 lines 92-102): identity
`numeric_limits<uint32_t>::max()`, combine is `min`. -/
def reduceMin : ReductionOp Nat :=
  { identity := two32 - 1, comb := min }

/-- `reduce_max<uint32_t>` (part_001 lines 110-120): identity
`numeric_limits<uint32_t>::lowest()` (which is `0` for `uint32_t`),
combine is `max`. -/
def reduceMax : ReductionOp Nat :=
  { identity := 0, comb := max }

/-- `reduce_add::apply` (part_001 line 64): `slot.fetch_add(value)`. -/
def reduceAddApply (slot v : Nat) : Nat × Nat := atomicFetchAdd slot v

/-- `reduce_sub::apply` (part_001 line 82): `slot.fetch_sub(value)`. -/
def reduceSubApply (slot v : Nat) : Nat × Nat := atomicFetchSub slot v

/-- `reduce_min::apply` (part_001 line 100): `slot.fetch_min(value)`. -/
def reduceMinApply (slot v : Nat) : Nat × Nat := atomicFetchMin slot v

/-- `reduce_max::apply` (part_001 line 118): `slot.fetch_max(value)`. -/
def reduceMaxApply (slot v : Nat) : Nat × Nat := atomicFetchMax slot v

/-- `custom_op::apply` (part_001 lines 141-157): a compare-and-swap retry
loop.  `interference` lists the successive values other units store into
the slot, one per failed `compare_exchange_strong` (on failure the CUDA
primitive reloads the current slot value into `old`); when no interference
remains the swap succeeds.  Returns (value returned, final slot value). -/
def customOpApply {V : Type} (op : V → V → V) :
    List V → V → V → V × V
  | [], slot, v => (slot, op slot v)
  | w :: rest, _, v => customOpApply op rest w v

/-- Delay used by `custom_op::apply` on its `n`-th failed attempt
(part_001 lines 144-153): `ns` starts at `BackoffBaseDelay`; after each
failed attempt, if `ns < BackoffMaxDelay` then `ns` is doubled (32-bit
unsigned multiplication). -/
def backoffDelay (base maxDelay : Nat) : Nat → Nat
  | 0 => base
  | n + 1 =>
    let ns := backoffDelay base maxDelay n
    if ns < maxDelay then ns * 2 % two32 else ns

/-! ### Byte-wise and vectorized comparison
(embedded from `include/cuco/detail/memcmp.cuh`) -/

/-- Reference byte-wise `__cuda_memcmp` (memcmp.cuh lines 2-13): compares
`count` bytes; the buffers are byte lists. -/
def cudaMemcmp : List Nat → List Nat → Nat → Int
  | _, _, 0 => 0
  | l :: ls, r :: rs, n + 1 =>
    if l < r then -1 else if r < l then 1 else cudaMemcmp ls rs n
  | [], _, _ + 1 => 0
  | _ :: _, [], _ + 1 => 0

/-- Little-endian value of a byte list (how a multi-byte load reads
adjacent bytes on the little-endian target). -/
def leVal : List Nat → Nat
  | [] => 0
  | b :: bs => b + 256 * leVal bs

/-- Vectorized comparison loop shared by the `memcmp_vectorized_impl<2>`,
`<4>` and `<8>` specializations (memcmp.cuh lines 23-63): steps through
the buffers `step` bytes at a time, comparing each pair of `step`-byte
little-endian words; the source instantiates `step` at 2, 4 and 8 only. -/
def compareVec (step : Nat) (lhs rhs : List Nat) (size : Nat) : Int :=
  if hs : size = 0 then 0
  else if hk : step = 0 then 0
  else
    let l := leVal (lhs.take step)
    let r := leVal (rhs.take step)
    if l < r then -1
    else if r < l then 1
    else compareVec step (lhs.drop step) (rhs.drop step) (size - step)
termination_by size
decreasing_by exact Nat.sub_lt (Nat.pos_of_ne_zero hs) (Nat.pos_of_ne_zero hk)

/-- Primary (non-specialized) `memcmp_vectorized_impl<alignment>::compare`
(memcmp.cuh lines 15-21): the body evaluates `__cuda_memcmp(lhs, rhs, size)`
but discards the result and falls off the end of the non-`void` function,
so no well-defined `int` is returned (modelled as `none`). -/
def primaryCompare (lhs rhs : List Nat) (size : Nat) : Option Int :=
  let _r := cudaMemcmp lhs rhs size
  none

/-- `__ffs` intrinsic: 1-based position of the least significant set bit,
0 when the argument is 0. -/
def ffs : Nat → Nat
  | 0 => 0
  | n + 1 => if (n + 1) % 2 = 1 then 1 else 1 + ffs ((n + 1) / 2)
termination_by n => n
decreasing_by exact Nat.div_lt_self (Nat.succ_pos n) (by omega)

/-- `determine_runtime_alignment` (memcmp.cuh lines 69-82). -/
def determineRuntimeAlignment (native lhsAddr rhsAddr size : Nat) : Nat :=
  if native < 4 then ffs (lhsAddr ||| rhsAddr ||| size) else native

/-- `__memcmp` dispatch (memcmp.cuh lines 84-99) over the runtime
alignment.  The branch taken when `runtime_alignment == native_alignment`
is `memcmp_vectorized_impl<native_alignment>(lhs, rhs, size)`, which lacks
`::compare` and produces no `int` value (modelled as `none`); `case 1`
instantiates the primary template, whose body returns no value either. -/
def memcmpDispatch (native lhsAddr rhsAddr : Nat) (lhs rhs : List Nat)
    (size : Nat) : Option Int :=
  let ra := determineRuntimeAlignment native lhsAddr rhsAddr size
  if ra = native then none
  else
    match ra with
    | 3 => some (compareVec 4 lhs rhs size)
    | 2 => some (compareVec 2 lhs rhs size)
    | 1 => primaryCompare lhs rhs size
    | _ => some (compareVec 8 lhs rhs size)

/-! ### The reduction map

Modelled from the spec: sections 3 (data model), 4.2 (insert/reduction
protocol) and 4.3 (find/contains protocol) of the specification; the
corresponding implementation file `static_reduction_map.inl` (included at
part_001 line 1140) is missing from the available sources, which hold only
the declarations and documentation of these operations. -/

/-- Modelled from the spec: slot storage plus the view metadata.  Keys are
naturals; a slot is empty iff its key field equals `sentinel`.  `evs` is
the view's empty-value sentinel field `empty_value_sentinel_`. -/
structure MapState (V : Type) where
  cap : Nat
  sentinel : Nat
  evs : V
  keyAt : Nat → Nat
  valAt : Nat → V

/-- Pointwise update of a slot array component. -/
def updF {α : Type} (f : Nat → α) (i : Nat) (x : α) : Nat → α :=
  fun j => if j = i then x else f j

/-- Freshly constructed map (spec section 4.5: every slot key set to the
sentinel, every slot value set to the operator's identity).  The
`empty_value_sentinel_` field is set to `ReductionOp::identity` exactly as
the `device_view_base` constructor does (part_001 lines 444-454). -/
def initState (V : Type) (c sent : Nat) (op : ReductionOp V) : MapState V :=
  { cap := c, sentinel := sent, evs := op.identity
    keyAt := fun _ => sent, valAt := fun _ => op.identity }

/-- Modelled from the spec: one probing step sequence of
`device_mutable_view::insert` (spec section 4.2).  At each candidate slot
the key is compared against the sentinel (the compare-and-swap claim): on
an empty slot the claim succeeds, the slot value (the identity) is
combined with `v`, and `true` (new key) is returned; on a slot holding an
equal key the value is combined and `false` is returned; otherwise the
probe advances linearly with wraparound.  The fuel bounds the walk; `none`
models the diverging probe of an over-full table. -/
def insertLoop {V : Type} (op : ReductionOp V) (st : MapState V)
    (k : Nat) (v : V) : Nat → Nat → Option (Bool × MapState V)
  | _, 0 => none
  | i, fuel + 1 =>
    if st.keyAt i = st.sentinel then
      some (true, { st with keyAt := updF st.keyAt i k,
                            valAt := updF st.valAt i (op.comb op.identity v) })
    else if st.keyAt i = k then
      some (false, { st with valAt := updF st.valAt i (op.comb (st.valAt i) v) })
    else
      insertLoop op st k v ((i + 1) % st.cap) fuel

/-- Modelled from the spec: `device_mutable_view::insert` for key `k` and
value `v`, probing from `hash(k) mod capacity` with at most `capacity`
steps. -/
def insertOp {V : Type} (op : ReductionOp V) (h : Nat → Nat)
    (st : MapState V) (k : Nat) (v : V) : Option (Bool × MapState V) :=
  insertLoop op st k v (h k % st.cap) st.cap

/-- Result of a find probe: an iterator to a slot, or the end iterator. -/
inductive FindRes where
  | found : Nat → FindRes
  | nf : FindRes
deriving DecidableEq

/-- Whether a find result is a real slot (differs from `end()`). -/
def FindRes.isFound : FindRes → Bool
  | .found _ => true
  | .nf => false

/-- Modelled from the spec: the probe loop of `device_view::find` (spec
section 4.3): at each slot, a key match terminates with that slot; a
sentinel key terminates with the end iterator; otherwise the probe
advances linearly with wraparound. -/
def findLoop {V : Type} (st : MapState V) (k : Nat) :
    Nat → Nat → Option FindRes
  | _, 0 => none
  | i, fuel + 1 =>
    if st.keyAt i = k then some (.found i)
    else if st.keyAt i = st.sentinel then some .nf
    else findLoop st k ((i + 1) % st.cap) fuel

/-- Modelled from the spec: `device_view::find`. -/
def findOp {V : Type} (h : Nat → Nat) (st : MapState V) (k : Nat) :
    Option FindRes :=
  findLoop st k (h k % st.cap) st.cap

/-- Modelled from the spec: the probe loop of `device_view::contains`
(spec section 4.3), the same walk returning a boolean. -/
def containsLoop {V : Type} (st : MapState V) (k : Nat) :
    Nat → Nat → Option Bool
  | _, 0 => none
  | i, fuel + 1 =>
    if st.keyAt i = k then some true
    else if st.keyAt i = st.sentinel then some false
    else containsLoop st k ((i + 1) % st.cap) fuel

/-- Modelled from the spec: `device_view::contains`. -/
def containsOp {V : Type} (h : Nat → Nat) (st : MapState V) (k : Nat) :
    Option Bool :=
  containsLoop st k (h k % st.cap) st.cap

/-- Modelled from the spec: the per-key value written by the bulk `find`
(part_001 lines 348-351: copies the slot's value for a present key, the
empty value sentinel otherwise). -/
def findValue {V : Type} (h : Nat → Nat) (st : MapState V) (k : Nat) :
    Option V :=
  match findOp h st k with
  | some (.found i) => some (st.valAt i)
  | some .nf => some st.evs
  | none => none

/-- Modelled from the spec: bulk `find` over a list of query keys, writing
one output value per key position. -/
def bulkFind {V : Type} (h : Nat → Nat) (st : MapState V) :
    List Nat → Option (List V)
  | [] => some []
  | k :: ks =>
    match findValue h st k with
    | none => none
    | some v =>
      match bulkFind h st ks with
      | none => none
      | some vs => some (v :: vs)

/-- Modelled from the spec: bulk `insert` of a list of pairs, also
collecting the per-element success flag (spec section 4.4, the
`insert(range) -> (value_output, success_output)` form). -/
def buildF {V : Type} (op : ReductionOp V) (h : Nat → Nat) :
    MapState V → List (Nat × V) → Option (MapState V × List Bool)
  | st, [] => some (st, [])
  | st, (k, v) :: rest =>
    match insertOp op h st k v with
    | none => none
    | some (b, st1) =>
      match buildF op h st1 rest with
      | none => none
      | some (stf, bs) => some (stf, b :: bs)

/-- Keys of a pair list. -/
def keysOf {V : Type} (P : List (Nat × V)) : List Nat := P.map Prod.fst

/-- Values inserted with key `k`, in insertion order. -/
def valuesOf {V : Type} (k : Nat) (P : List (Nat × V)) : List V :=
  (P.filter (fun p => p.1 = k)).map Prod.snd

/-- Expected success flags of a bulk insert: `true` exactly when the key
has not occurred before (neither in `prev` nor earlier in the list). -/
def expectedFlags {V : Type} : List Nat → List (Nat × V) → List Bool
  | _, [] => []
  | prev, (k, _) :: rest => decide (¬ k ∈ prev) :: expectedFlags (prev ++ [k]) rest

/-- View metadata established by the `device_view_base` constructor. -/
structure DeviceViewBase (V : Type) where
  capacity : Nat
  emptyKeySentinel : Nat
  emptyValueSentinel : V
  op : ReductionOp V

/-- The `device_view_base` constructor (part_001 lines 444-454): stores the
capacity, the empty-key sentinel and the operator, and initializes
`empty_value_sentinel_` with `ReductionOp::identity`. -/
def mkDeviceViewBase (V : Type) (op : ReductionOp V) (capacity eks : Nat) :
    DeviceViewBase V :=
  { capacity := capacity, emptyKeySentinel := eks,
    emptyValueSentinel := op.identity, op := op }

/-! ### Storage accesses of the lookup protocols (for the frame property) -/

/-- One storage access performed by a probing unit: an atomic load of a
slot, or a store of a key/value into a slot. -/
inductive SlotAccess (V : Type) where
  | load : Nat → SlotAccess V
  | store : Nat → Nat → V → SlotAccess V

/-- Effect of one storage access on the slot storage. -/
def runAccess {V : Type} (st : MapState V) : SlotAccess V → MapState V
  | .load _ => st
  | .store i k v =>
    { st with keyAt := updF st.keyAt i k, valAt := updF st.valAt i v }

/-- Modelled from the spec: the find probe instrumented with the storage
accesses it performs (spec section 4.3 — each probe step is a single read
of the candidate slot). -/
def findLoopA {V : Type} (st : MapState V) (k : Nat) :
    Nat → Nat → Option FindRes × List (SlotAccess V)
  | _, 0 => (none, [])
  | i, fuel + 1 =>
    if st.keyAt i = k then (some (.found i), [.load i])
    else if st.keyAt i = st.sentinel then (some .nf, [.load i])
    else
      let r := findLoopA st k ((i + 1) % st.cap) fuel
      (r.1, .load i :: r.2)

/-- Modelled from the spec: the contains probe instrumented with the
storage accesses it performs. -/
def containsLoopA {V : Type} (st : MapState V) (k : Nat) :
    Nat → Nat → Option Bool × List (SlotAccess V)
  | _, 0 => (none, [])
  | i, fuel + 1 =>
    if st.keyAt i = k then (some true, [.load i])
    else if st.keyAt i = st.sentinel then (some false, [.load i])
    else
      let r := containsLoopA st k ((i + 1) % st.cap) fuel
      (r.1, .load i :: r.2)

/-! ### Probe-walk arithmetic -/

/-- Slot visited `t` steps after starting the linear probe at `a`. -/
def probePos (c a t : Nat) : Nat := (a + t) % c

/-- Number of forward steps from the start `a` to reach slot `j`. -/
def probeDist (c a j : Nat) : Nat := (j + c - a % c) % c

/-- Invariant tying the slot storage to the list `P` of pairs inserted so
far: the empty-value sentinel is the identity; occupied slots hold exactly
the inserted keys, each at most once; the probe path from a key's home
slot to its slot is fully occupied; and each occupied slot's value is the
fold of the operator over the values inserted for its key. -/
structure Inv {V : Type} (op : ReductionOp V) (h : Nat → Nat)
    (P : List (Nat × V)) (st : MapState V) : Prop where
  evs_eq : st.evs = op.identity
  sent_notin : ¬ st.sentinel ∈ keysOf P
  occ_ins : ∀ i, i < st.cap → st.keyAt i ≠ st.sentinel →
    st.keyAt i ∈ keysOf P
  ins_occ : ∀ k, k ∈ keysOf P → ∃ i, i < st.cap ∧ st.keyAt i = k
  inj : ∀ i j, i < st.cap → j < st.cap → st.keyAt i ≠ st.sentinel →
    st.keyAt i = st.keyAt j → i = j
  path : ∀ i, i < st.cap → st.keyAt i ≠ st.sentinel →
    ∀ t, t < probeDist st.cap (h (st.keyAt i)) i →
      st.keyAt (probePos st.cap (h (st.keyAt i)) t) ≠ st.sentinel
  vals : ∀ i, i < st.cap → st.keyAt i ≠ st.sentinel →
    st.valAt i = (valuesOf (st.keyAt i) P).foldl op.comb op.identity

/-! ## Probe-walk arithmetic lemmas -/

lemma probePos_lt {c : Nat} (hc : 0 < c) (a t : Nat) : probePos c a t < c :=
  Nat.mod_lt _ hc

lemma probeDist_lt {c : Nat} (hc : 0 < c) (a j : Nat) : probeDist c a j < c :=
  Nat.mod_lt _ hc

lemma probePos_zero (c a : Nat) : probePos c a 0 = a % c := by
  simp [probePos]

lemma probePos_shift (c a s : Nat) :
    probePos c (a + 1) s = probePos c a (s + 1) := by
  unfold probePos
  congr 1
  omega

lemma probePos_inj {c : Nat} (hc : 0 < c) {a s t : Nat} (hs : s < c)
    (ht : t < c) (hp : probePos c a s = probePos c a t) : s = t := by
  have hmod : s % c = t % c :=
    Nat.ModEq.add_left_cancel' a (hp : (a + s) % c = (a + t) % c)
  rwa [Nat.mod_eq_of_lt hs, Nat.mod_eq_of_lt ht] at hmod

lemma probePos_probeDist {c : Nat} (hc : 0 < c) {j : Nat} (a : Nat)
    (hj : j < c) : probePos c a (probeDist c a j) = j := by
  have hle : a % c ≤ a := Nat.mod_le a c
  have hma : a % c < c := Nat.mod_lt _ hc
  have hdm : c * (a / c) + a % c = a := Nat.div_add_mod a c
  have h1 : a + (j + c - a % c) = c * (a / c) + (j + c) := by omega
  show (a + (j + c - a % c) % c) % c = j
  calc (a + (j + c - a % c) % c) % c
      = (a + (j + c - a % c)) % c := by rw [Nat.add_mod_mod]
    _ = (c * (a / c) + (j + c)) % c := by rw [h1]
    _ = (j + c) % c := by rw [Nat.mul_add_mod]
    _ = j % c := by rw [Nat.add_mod_right]
    _ = j := Nat.mod_eq_of_lt hj

lemma probeDist_probePos {c : Nat} (hc : 0 < c) {t : Nat} (a : Nat)
    (ht : t < c) : probeDist c a (probePos c a t) = t :=
  probePos_inj hc (probeDist_lt hc a _) ht
    (probePos_probeDist hc a (probePos_lt hc a t))

lemma probePos_surj {c : Nat} (hc : 0 < c) (a : Nat) {j : Nat} (hj : j < c) :
    ∃ t, t < c ∧ probePos c a t = j :=
  ⟨probeDist c a j, probeDist_lt hc a j, probePos_probeDist hc a hj⟩

/-! ## Probe-walk lemmas for the three loops -/

lemma findLoop_walk {V : Type} (st : MapState V) (k : Nat) :
    ∀ t a fuel, t < fuel →
    (∀ s, s < t → st.keyAt (probePos st.cap a s) ≠ k ∧
      st.keyAt (probePos st.cap a s) ≠ st.sentinel) →
    findLoop st k (a % st.cap) fuel =
      findLoop st k (probePos st.cap a t) (fuel - t) := by
  intro t
  induction t with
  | zero =>
    intro a fuel _ _
    rw [probePos_zero, Nat.sub_zero]
  | succ t ih =>
    intro a fuel hlt hpre
    obtain ⟨f, rfl⟩ : ∃ f, fuel = f + 1 := ⟨fuel - 1, by omega⟩
    have h0 := hpre 0 (Nat.succ_pos t)
    rw [probePos_zero] at h0
    have hstep : findLoop st k (a % st.cap) (f + 1) =
        findLoop st k ((a % st.cap + 1) % st.cap) f := by
      simp only [findLoop, if_neg h0.1, if_neg h0.2]
    rw [hstep, Nat.mod_add_mod]
    have ih2 := ih (a + 1) f (by omega) (fun s hs => by
      have := hpre (s + 1) (by omega)
      rwa [← probePos_shift] at this)
    rw [ih2, probePos_shift]
    congr 1
    omega

lemma insertLoop_walk {V : Type} (op : ReductionOp V) (st : MapState V)
    (k : Nat) (v : V) :
    ∀ t a fuel, t < fuel →
    (∀ s, s < t → st.keyAt (probePos st.cap a s) ≠ k ∧
      st.keyAt (probePos st.cap a s) ≠ st.sentinel) →
    insertLoop op st k v (a % st.cap) fuel =
      insertLoop op st k v (probePos st.cap a t) (fuel - t) := by
  intro t
  induction t with
  | zero =>
    intro a fuel _ _
    rw [probePos_zero, Nat.sub_zero]
  | succ t ih =>
    intro a fuel hlt hpre
    obtain ⟨f, rfl⟩ : ∃ f, fuel = f + 1 := ⟨fuel - 1, by omega⟩
    have h0 := hpre 0 (Nat.succ_pos t)
    rw [probePos_zero] at h0
    have hstep : insertLoop op st k v (a % st.cap) (f + 1) =
        insertLoop op st k v ((a % st.cap + 1) % st.cap) f := by
      simp only [insertLoop, if_neg h0.1, if_neg h0.2]
    rw [hstep, Nat.mod_add_mod]
    have ih2 := ih (a + 1) f (by omega) (fun s hs => by
      have := hpre (s + 1) (by omega)
      rwa [← probePos_shift] at this)
    rw [ih2, probePos_shift]
    congr 1
    omega

lemma containsLoop_walk {V : Type} (st : MapState V) (k : Nat) :
    ∀ t a fuel, t < fuel →
    (∀ s, s < t → st.keyAt (probePos st.cap a s) ≠ k ∧
      st.keyAt (probePos st.cap a s) ≠ st.sentinel) →
    containsLoop st k (a % st.cap) fuel =
      containsLoop st k (probePos st.cap a t) (fuel - t) := by
  intro t
  induction t with
  | zero =>
    intro a fuel _ _
    rw [probePos_zero, Nat.sub_zero]
  | succ t ih =>
    intro a fuel hlt hpre
    obtain ⟨f, rfl⟩ : ∃ f, fuel = f + 1 := ⟨fuel - 1, by omega⟩
    have h0 := hpre 0 (Nat.succ_pos t)
    rw [probePos_zero] at h0
    have hstep : containsLoop st k (a % st.cap) (f + 1) =
        containsLoop st k ((a % st.cap + 1) % st.cap) f := by
      simp only [containsLoop, if_neg h0.1, if_neg h0.2]
    rw [hstep, Nat.mod_add_mod]
    have ih2 := ih (a + 1) f (by omega) (fun s hs => by
      have := hpre (s + 1) (by omega)
      rwa [← probePos_shift] at this)
    rw [ih2, probePos_shift]
    congr 1
    omega

/-! ## Helper lemmas about inserted keys and values -/

lemma keysOf_append {V : Type} (P Q : List (Nat × V)) :
    keysOf (P ++ Q) = keysOf P ++ keysOf Q := by
  simp [keysOf]

lemma keysOf_cons {V : Type} (p : Nat × V) (P : List (Nat × V)) :
    keysOf (p :: P) = p.1 :: keysOf P := rfl

lemma valuesOf_cons {V : Type} (k : Nat) (p : Nat × V) (P : List (Nat × V)) :
    valuesOf k (p :: P) =
      if p.1 = k then p.2 :: valuesOf k P else valuesOf k P := by
  by_cases hp : p.1 = k <;> simp [valuesOf, List.filter_cons, hp]

lemma valuesOf_append {V : Type} (k : Nat) (P Q : List (Nat × V)) :
    valuesOf k (P ++ Q) = valuesOf k P ++ valuesOf k Q := by
  simp [valuesOf, List.filter_append]

lemma valuesOf_single_self {V : Type} (k : Nat) (v : V) :
    valuesOf k [(k, v)] = [v] := by
  simp [valuesOf]

lemma valuesOf_single_ne {V : Type} {q k : Nat} (hne : k ≠ q) (v : V) :
    valuesOf q [(k, v)] = [] := by
  simp [valuesOf, hne]

lemma valuesOf_nil_of_not_mem {V : Type} {k : Nat} {P : List (Nat × V)}
    (hm : ¬ k ∈ keysOf P) : valuesOf k P = [] := by
  induction P with
  | nil => rfl
  | cons p rest ih =>
    rw [keysOf_cons] at hm
    simp only [List.mem_cons] at hm
    push_neg at hm
    rw [valuesOf_cons, if_neg (fun hp => hm.1 hp.symm), ih hm.2]

/-! ## Lookup lemmas under the invariant -/

lemma find_present {V : Type} {op : ReductionOp V} {h : Nat → Nat}
    {P : List (Nat × V)} {st : MapState V} (hinv : Inv op h P st)
    (hc : 0 < st.cap) {k : Nat} (hk : k ≠ st.sentinel) {i : Nat}
    (hi : i < st.cap) (hkey : st.keyAt i = k) :
    findOp h st k = some (.found i) := by
  have hne : st.keyAt i ≠ st.sentinel := by rw [hkey]; exact hk
  have hpath := hinv.path i hi hne
  rw [hkey] at hpath
  have hpos : probePos st.cap (h k) (probeDist st.cap (h k) i) = i :=
    probePos_probeDist hc (h k) hi
  have ht : probeDist st.cap (h k) i < st.cap := probeDist_lt hc _ _
  have hpre : ∀ s, s < probeDist st.cap (h k) i →
      st.keyAt (probePos st.cap (h k) s) ≠ k ∧
      st.keyAt (probePos st.cap (h k) s) ≠ st.sentinel := by
    intro s hs
    have hnsent := hpath s hs
    refine ⟨?_, hnsent⟩
    intro heq
    have heqi : probePos st.cap (h k) s = i :=
      hinv.inj _ i (probePos_lt hc _ _) hi (by rw [heq]; exact hk)
        (by rw [heq, hkey])
    rw [← hpos] at heqi
    have := probePos_inj hc (lt_trans hs ht) ht heqi
    omega
  unfold findOp
  rw [findLoop_walk st k (probeDist st.cap (h k) i) (h k) st.cap ht hpre, hpos]
  obtain ⟨f, hf⟩ : ∃ f, st.cap - probeDist st.cap (h k) i = f + 1 :=
    ⟨st.cap - probeDist st.cap (h k) i - 1, by omega⟩
  rw [hf]
  simp only [findLoop, if_pos hkey]

lemma find_absent {V : Type} {op : ReductionOp V} {h : Nat → Nat}
    {P : List (Nat × V)} {st : MapState V} (hinv : Inv op h P st)
    (hc : 0 < st.cap) {k : Nat} (hk : k ≠ st.sentinel)
    (hnotin : ¬ k ∈ keysOf P)
    (hempty : ∃ e, e < st.cap ∧ st.keyAt e = st.sentinel) :
    findOp h st k = some .nf := by
  obtain ⟨e, he, hesent⟩ := hempty
  have hex : ∃ t, st.keyAt (probePos st.cap (h k) t) = st.sentinel := by
    obtain ⟨t, _, hpt⟩ := probePos_surj hc (h k) he
    exact ⟨t, by rw [hpt]; exact hesent⟩
  have ht0sent := Nat.find_spec hex
  have ht0lt : Nat.find hex < st.cap := by
    obtain ⟨t, htlt, hpt⟩ := probePos_surj hc (h k) he
    have : Nat.find hex ≤ t := Nat.find_min' hex (by rw [hpt]; exact hesent)
    omega
  have hpre : ∀ s, s < Nat.find hex →
      st.keyAt (probePos st.cap (h k) s) ≠ k ∧
      st.keyAt (probePos st.cap (h k) s) ≠ st.sentinel := by
    intro s hs
    have hnsent : st.keyAt (probePos st.cap (h k) s) ≠ st.sentinel :=
      Nat.find_min hex hs
    refine ⟨?_, hnsent⟩
    intro heq
    exact hnotin (heq ▸ hinv.occ_ins _ (probePos_lt hc _ _) hnsent)
  unfold findOp
  rw [findLoop_walk st k (Nat.find hex) (h k) st.cap ht0lt hpre]
  obtain ⟨f, hf⟩ : ∃ f, st.cap - Nat.find hex = f + 1 :=
    ⟨st.cap - Nat.find hex - 1, by omega⟩
  rw [hf]
  have hkne : st.keyAt (probePos st.cap (h k) (Nat.find hex)) ≠ k := by
    rw [ht0sent]; exact Ne.symm hk
  simp only [findLoop, if_neg hkne, if_pos ht0sent]

lemma find_total {V : Type} {st : MapState V} (hc : 0 < st.cap)
    (h : Nat → Nat) (k : Nat)
    (hempty : ∃ e, e < st.cap ∧ st.keyAt e = st.sentinel) :
    ∃ r, findOp h st k = some r := by
  obtain ⟨e, he, hesent⟩ := hempty
  have hex : ∃ t, st.keyAt (probePos st.cap (h k) t) = k ∨
      st.keyAt (probePos st.cap (h k) t) = st.sentinel := by
    obtain ⟨t, _, hpt⟩ := probePos_surj hc (h k) he
    exact ⟨t, Or.inr (by rw [hpt]; exact hesent)⟩
  have ht0 := Nat.find_spec hex
  have ht0lt : Nat.find hex < st.cap := by
    obtain ⟨t, htlt, hpt⟩ := probePos_surj hc (h k) he
    have : Nat.find hex ≤ t :=
      Nat.find_min' hex (Or.inr (by rw [hpt]; exact hesent))
    omega
  have hpre : ∀ s, s < Nat.find hex →
      st.keyAt (probePos st.cap (h k) s) ≠ k ∧
      st.keyAt (probePos st.cap (h k) s) ≠ st.sentinel := by
    intro s hs
    have := Nat.find_min hex hs
    push_neg at this
    exact this
  unfold findOp
  rw [findLoop_walk st k (Nat.find hex) (h k) st.cap ht0lt hpre]
  obtain ⟨f, hf⟩ : ∃ f, st.cap - Nat.find hex = f + 1 :=
    ⟨st.cap - Nat.find hex - 1, by omega⟩
  rw [hf]
  rcases ht0 with hfound | hsent
  · exact ⟨.found (probePos st.cap (h k) (Nat.find hex)),
      by simp only [findLoop, if_pos hfound]⟩
  · by_cases hkk : st.keyAt (probePos st.cap (h k) (Nat.find hex)) = k
    · exact ⟨.found (probePos st.cap (h k) (Nat.find hex)),
        by simp only [findLoop, if_pos hkk]⟩
    · exact ⟨.nf, by simp only [findLoop, if_neg hkk, if_pos hsent]⟩

/-! ## Insert lemmas -/

lemma exists_empty {V : Type} {op : ReductionOp V} {h : Nat → Nat}
    {P : List (Nat × V)} {st : MapState V} (hinv : Inv op h P st)
    (hcard : (keysOf P).toFinset.card < st.cap) :
    ∃ e, e < st.cap ∧ st.keyAt e = st.sentinel := by
  by_contra hno
  push_neg at hno
  have hinj : Set.InjOn st.keyAt (Finset.range st.cap) := by
    intro i hi j hj heq
    simp only [Finset.coe_range, Set.mem_Iio] at hi hj
    exact hinv.inj i j hi hj (hno i hi) heq
  have hsub : (Finset.range st.cap).image st.keyAt ⊆ (keysOf P).toFinset := by
    intro x hx
    simp only [Finset.mem_image, Finset.mem_range] at hx
    obtain ⟨i, hi, rfl⟩ := hx
    exact List.mem_toFinset.mpr (hinv.occ_ins i hi (hno i hi))
  have h1 : st.cap ≤ (keysOf P).toFinset.card := by
    calc st.cap = (Finset.range st.cap).card := (Finset.card_range _).symm
      _ = ((Finset.range st.cap).image st.keyAt).card :=
          (Finset.card_image_of_injOn hinj).symm
      _ ≤ (keysOf P).toFinset.card := Finset.card_le_card hsub
  omega

lemma insert_step {V : Type} {op : ReductionOp V} {h : Nat → Nat}
    {P : List (Nat × V)} {st : MapState V} (hinv : Inv op h P st)
    (hc : 0 < st.cap) {k : Nat} (hk : k ≠ st.sentinel) (v : V)
    (hempty : ∃ e, e < st.cap ∧ st.keyAt e = st.sentinel) :
    ∃ b st1, insertOp op h st k v = some (b, st1) ∧
      (b = true ↔ ¬ k ∈ keysOf P) ∧ Inv op h (P ++ [(k, v)]) st1 ∧
      st1.cap = st.cap ∧ st1.sentinel = st.sentinel := by
  by_cases hmem : k ∈ keysOf P
  · -- the key already occupies slot i: the probe combines into its value
    obtain ⟨i, hi, hkey⟩ := hinv.ins_occ k hmem
    have hne : st.keyAt i ≠ st.sentinel := by rw [hkey]; exact hk
    have hpath := hinv.path i hi hne
    rw [hkey] at hpath
    have hpos : probePos st.cap (h k) (probeDist st.cap (h k) i) = i :=
      probePos_probeDist hc (h k) hi
    have ht : probeDist st.cap (h k) i < st.cap := probeDist_lt hc _ _
    have hpre : ∀ s, s < probeDist st.cap (h k) i →
        st.keyAt (probePos st.cap (h k) s) ≠ k ∧
        st.keyAt (probePos st.cap (h k) s) ≠ st.sentinel := by
      intro s hs
      have hnsent := hpath s hs
      refine ⟨?_, hnsent⟩
      intro heq
      have heqi : probePos st.cap (h k) s = i :=
        hinv.inj _ i (probePos_lt hc _ _) hi (by rw [heq]; exact hk)
          (by rw [heq, hkey])
      rw [← hpos] at heqi
      have := probePos_inj hc (lt_trans hs ht) ht heqi
      omega
    refine ⟨false,
      { st with valAt := updF st.valAt i (op.comb (st.valAt i) v) },
      ?_, by simp [hmem], ?_, rfl, rfl⟩
    · unfold insertOp
      rw [insertLoop_walk op st k v (probeDist st.cap (h k) i) (h k) st.cap
        ht hpre, hpos]
      obtain ⟨f, hf⟩ : ∃ f, st.cap - probeDist st.cap (h k) i = f + 1 :=
        ⟨st.cap - probeDist st.cap (h k) i - 1, by omega⟩
      rw [hf]
      simp only [insertLoop, if_neg hne, if_pos hkey]
    · refine ⟨hinv.evs_eq, ?_, ?_, ?_, hinv.inj, hinv.path, ?_⟩
      · intro hmem2
        rw [keysOf_append] at hmem2
        rcases List.mem_append.mp hmem2 with h1 | h2
        · exact hinv.sent_notin h1
        · simp only [keysOf, List.map_cons, List.map_nil,
            List.mem_singleton] at h2
          exact hk h2.symm
      · intro j hj hne2
        rw [keysOf_append]
        exact List.mem_append_left _ (hinv.occ_ins j hj hne2)
      · intro k' hk'
        rw [keysOf_append] at hk'
        rcases List.mem_append.mp hk' with h1 | h2
        · exact hinv.ins_occ k' h1
        · simp only [keysOf, List.map_cons, List.map_nil,
            List.mem_singleton] at h2
          exact ⟨i, hi, by rw [hkey, h2]⟩
      · intro j hj hne2
        simp only [] at hj hne2 ⊢
        by_cases hji : j = i
        · subst hji
          rw [show updF st.valAt j (op.comb (st.valAt j) v) j =
              op.comb (st.valAt j) v from if_pos rfl]
          have hkj : st.keyAt j = k := hkey
          rw [hkj, valuesOf_append, valuesOf_single_self,
            List.foldl_append, hinv.vals j hj hne2, hkj]
          simp [List.foldl]
        · rw [show updF st.valAt i (op.comb (st.valAt i) v) j =
              st.valAt j from if_neg hji]
          have hjk : st.keyAt j ≠ k := fun hq =>
            hji (hinv.inj j i hj hi hne2 (by rw [hq, hkey]))
          rw [valuesOf_append, valuesOf_single_ne (Ne.symm hjk),
            List.append_nil]
          exact hinv.vals j hj hne2
  · -- new key: the probe claims the first empty slot on its path
    obtain ⟨e0, he0, hesent0⟩ := hempty
    have hex : ∃ t, st.keyAt (probePos st.cap (h k) t) = st.sentinel := by
      obtain ⟨t, _, hpt⟩ := probePos_surj hc (h k) he0
      exact ⟨t, by rw [hpt]; exact hesent0⟩
    have htsent := Nat.find_spec hex
    have htlt : Nat.find hex < st.cap := by
      obtain ⟨t, htlt, hpt⟩ := probePos_surj hc (h k) he0
      have : Nat.find hex ≤ t := Nat.find_min' hex (by rw [hpt]; exact hesent0)
      omega
    have hdist : probeDist st.cap (h k)
        (probePos st.cap (h k) (Nat.find hex)) = Nat.find hex :=
      probeDist_probePos hc (h k) htlt
    have hpre : ∀ s, s < Nat.find hex →
        st.keyAt (probePos st.cap (h k) s) ≠ k ∧
        st.keyAt (probePos st.cap (h k) s) ≠ st.sentinel := by
      intro s hs
      have hnsent : st.keyAt (probePos st.cap (h k) s) ≠ st.sentinel :=
        Nat.find_min hex hs
      refine ⟨?_, hnsent⟩
      intro heq
      exact hmem (heq ▸ hinv.occ_ins _ (probePos_lt hc _ _) hnsent)
    refine ⟨true,
      { st with
        keyAt := updF st.keyAt (probePos st.cap (h k) (Nat.find hex)) k,
        valAt := updF st.valAt (probePos st.cap (h k) (Nat.find hex))
          (op.comb op.identity v) },
      ?_, by simp [hmem], ?_, rfl, rfl⟩
    · unfold insertOp
      rw [insertLoop_walk op st k v (Nat.find hex) (h k) st.cap htlt hpre]
      obtain ⟨f, hf⟩ : ∃ f, st.cap - Nat.find hex = f + 1 :=
        ⟨st.cap - Nat.find hex - 1, by omega⟩
      rw [hf]
      simp only [insertLoop, if_pos htsent]
    · set e := probePos st.cap (h k) (Nat.find hex) with hedef
      have helt : e < st.cap := probePos_lt hc _ _
      refine ⟨hinv.evs_eq, ?_, ?_, ?_, ?_, ?_, ?_⟩
      · intro hmem2
        rw [keysOf_append] at hmem2
        rcases List.mem_append.mp hmem2 with h1 | h2
        · exact hinv.sent_notin h1
        · simp only [keysOf, List.map_cons, List.map_nil,
            List.mem_singleton] at h2
          exact hk h2.symm
      · intro j hj hne2
        simp only [] at hj hne2 ⊢
        rw [keysOf_append]
        by_cases hje : j = e
        · rw [show updF st.keyAt e k j = k from by rw [hje]; exact if_pos rfl]
          exact List.mem_append_right _ (by simp [keysOf])
        · rw [show updF st.keyAt e k j = st.keyAt j from if_neg hje]
          rw [show updF st.keyAt e k j = st.keyAt j from if_neg hje] at hne2
          exact List.mem_append_left _ (hinv.occ_ins j hj hne2)
      · intro k' hk'
        rw [keysOf_append] at hk'
        rcases List.mem_append.mp hk' with h1 | h2
        · obtain ⟨i, hi, hkey⟩ := hinv.ins_occ k' h1
          have hks : k' ≠ st.sentinel := fun hq => hinv.sent_notin (hq ▸ h1)
          have hie : i ≠ e := fun hq => hks (by rw [← hkey, hq]; exact htsent)
          exact ⟨i, hi, by
            show updF st.keyAt e k i = k'
            rw [show updF st.keyAt e k i = st.keyAt i from if_neg hie]
            exact hkey⟩
        · simp only [keysOf, List.map_cons, List.map_nil,
            List.mem_singleton] at h2
          exact ⟨e, helt, by
            show updF st.keyAt e k e = k'
            rw [show updF st.keyAt e k e = k from if_pos rfl, h2]⟩
      · intro i j hi hj hne2 heq
        simp only [] at hi hj hne2 heq
        by_cases hie : i = e <;> by_cases hje : j = e
        · rw [hie, hje]
        · rw [show updF st.keyAt e k i = k from by rw [hie]; exact if_pos rfl,
            show updF st.keyAt e k j = st.keyAt j from if_neg hje] at heq
          exact absurd (heq ▸ hinv.occ_ins j hj (by rw [← heq]; exact hk))
            hmem
        · rw [show updF st.keyAt e k j = k from by rw [hje]; exact if_pos rfl,
            show updF st.keyAt e k i = st.keyAt i from if_neg hie] at heq
          exact absurd (heq ▸ hinv.occ_ins i hi (by rw [heq]; exact hk)) hmem
        · rw [show updF st.keyAt e k i = st.keyAt i from if_neg hie] at heq hne2
          rw [show updF st.keyAt e k j = st.keyAt j from if_neg hje] at heq
          exact hinv.inj i j hi hj hne2 heq
      · intro j hj hne2 t htd
        simp only [] at hj hne2 htd ⊢
        by_cases hje : j = e
        · subst hje
          rw [show updF st.keyAt e k e = k from if_pos rfl] at htd ⊢
          rw [hdist] at htd
          by_cases hpe : probePos st.cap (h k) t = e
          · rw [show updF st.keyAt e k (probePos st.cap (h k) t) = k from
              by rw [hpe]; exact if_pos rfl]
            exact hk
          · rw [show updF st.keyAt e k (probePos st.cap (h k) t) =
              st.keyAt (probePos st.cap (h k) t) from if_neg hpe]
            exact Nat.find_min hex htd
        · rw [show updF st.keyAt e k j = st.keyAt j from if_neg hje] at hne2 htd ⊢
          have hold := hinv.path j hj hne2 t htd
          by_cases hpe : probePos st.cap (h (st.keyAt j)) t = e
          · rw [show updF st.keyAt e k (probePos st.cap (h (st.keyAt j)) t) =
              k from by rw [hpe]; exact if_pos rfl]
            exact hk
          · rw [show updF st.keyAt e k (probePos st.cap (h (st.keyAt j)) t) =
              st.keyAt (probePos st.cap (h (st.keyAt j)) t) from if_neg hpe]
            exact hold
      · intro j hj hne2
        simp only [] at hj hne2 ⊢
        by_cases hje : j = e
        · subst hje
          rw [show updF st.keyAt e k e = k from if_pos rfl]
          rw [show updF st.valAt e (op.comb op.identity v) e =
            op.comb op.identity v from if_pos rfl]
          rw [valuesOf_append, valuesOf_nil_of_not_mem hmem,
            valuesOf_single_self, List.nil_append]
          simp [List.foldl]
        · rw [show updF st.keyAt e k j = st.keyAt j from if_neg hje] at hne2 ⊢
          rw [show updF st.valAt e (op.comb op.identity v) j = st.valAt j from
            if_neg hje]
          have hjk : st.keyAt j ≠ k := fun hq =>
            hmem (hq ▸ hinv.occ_ins j hj hne2)
          rw [valuesOf_append, valuesOf_single_ne (Ne.symm hjk),
            List.append_nil]
          exact hinv.vals j hj hne2

/-! ## Bulk insert -/

lemma buildF_spec {V : Type} (op : ReductionOp V) (h : Nat → Nat) :
    ∀ (pairs P : List (Nat × V)) (st : MapState V), Inv op h P st →
    0 < st.cap →
    (∀ q, q ∈ keysOf pairs → q ≠ st.sentinel) →
    (keysOf (P ++ pairs)).toFinset.card < st.cap →
    ∃ stf flags, buildF op h st pairs = some (stf, flags) ∧
      Inv op h (P ++ pairs) stf ∧ stf.cap = st.cap ∧
      stf.sentinel = st.sentinel ∧
      flags = expectedFlags (keysOf P) pairs := by
  intro pairs
  induction pairs with
  | nil =>
    intro P st hinv hc _ _
    exact ⟨st, [], rfl, by simpa using hinv, rfl, rfl, rfl⟩
  | cons pv rest ih =>
    obtain ⟨k, v⟩ := pv
    intro P st hinv hc hsent hcard
    have hkne : k ≠ st.sentinel := hsent k (by simp [keysOf])
    have hsub : (keysOf P).toFinset ⊆
        (keysOf (P ++ (k, v) :: rest)).toFinset := by
      intro x hx
      simp only [List.mem_toFinset] at hx ⊢
      rw [keysOf_append]
      exact List.mem_append_left _ hx
    have hem : ∃ e, e < st.cap ∧ st.keyAt e = st.sentinel :=
      exists_empty hinv (lt_of_le_of_lt (Finset.card_le_card hsub) hcard)
    obtain ⟨b, st1, hins, hbiff, hinv1, hcap1, hsent1⟩ :=
      insert_step hinv hc hkne v hem
    have hc1 : 0 < st1.cap := by rw [hcap1]; exact hc
    have hsent' : ∀ q, q ∈ keysOf rest → q ≠ st1.sentinel := by
      intro q hq
      rw [hsent1]
      exact hsent q (by rw [keysOf_cons]; exact List.mem_cons_of_mem _ hq)
    have happ : (P ++ [(k, v)]) ++ rest = P ++ (k, v) :: rest := by
      rw [List.append_assoc]; rfl
    have hcard1 :
        (keysOf ((P ++ [(k, v)]) ++ rest)).toFinset.card < st1.cap := by
      rw [happ, hcap1]; exact hcard
    obtain ⟨stf, flags, hbuild, hinvf, hcapf, hsentf, hflags⟩ :=
      ih (P ++ [(k, v)]) st1 hinv1 hc1 hsent' hcard1
    refine ⟨stf, b :: flags, ?_, ?_, ?_, ?_, ?_⟩
    · simp only [buildF, hins, hbuild]
    · rw [← happ]; exact hinvf
    · rw [hcapf, hcap1]
    · rw [hsentf, hsent1]
    · have hb : b = decide (¬ k ∈ keysOf P) := by
        rcases Bool.eq_false_or_eq_true b with hb0 | hb0 <;>
          rw [hb0] at hbiff ⊢ <;> simp at hbiff <;> simp [hbiff]
      have hkeys : keysOf (P ++ [(k, v)]) = keysOf P ++ [k] := by
        rw [keysOf_append]; rfl
      rw [hflags, hkeys]
      simp only [expectedFlags]
      rw [hb]

lemma expectedFlags_length {V : Type} :
    ∀ (pairs : List (Nat × V)) (prev : List Nat),
      (expectedFlags prev pairs).length = pairs.length := by
  intro pairs
  induction pairs with
  | nil => intro prev; rfl
  | cons pv rest ih =>
    obtain ⟨k, v⟩ := pv
    intro prev
    simp [expectedFlags, ih]

lemma expectedFlags_get {V : Type} :
    ∀ (pairs : List (Nat × V)) (prev : List Nat) (i : Nat)
      (hi : i < pairs.length) (hf : i < (expectedFlags prev pairs).length),
      ((expectedFlags prev pairs).get ⟨i, hf⟩ = true ↔
        ¬ (pairs.get ⟨i, hi⟩).1 ∈ prev ++ keysOf (pairs.take i)) := by
  intro pairs
  induction pairs with
  | nil => intro prev i hi _; simp at hi
  | cons pv rest ih =>
    obtain ⟨k, v⟩ := pv
    intro prev i hi hf
    cases i with
    | zero => simp [expectedFlags, keysOf]
    | succ j =>
      have hj : j < rest.length := by simpa using hi
      have hf' : j < (expectedFlags (prev ++ [k]) rest).length := by
        simpa [expectedFlags] using hf
      have hrec := ih (prev ++ [k]) j hj hf'
      have hlist : (prev ++ [k]) ++ keysOf (rest.take j) =
          prev ++ keysOf (((k, v) :: rest).take (j + 1)) := by
        simp [keysOf]
      rw [hlist] at hrec
      exact hrec

/-! ## Bulk find -/

lemma bulkFind_spec {V : Type} (h : Nat → Nat) (st : MapState V)
    (htot : ∀ q, ∃ r, findOp h st q = some r) :
    ∀ qs : List Nat, ∃ outs, bulkFind h st qs = some outs ∧
      outs.length = qs.length ∧
      ∀ i (hi : i < qs.length) (ho : i < outs.length),
        findValue h st (qs.get ⟨i, hi⟩) = some (outs.get ⟨i, ho⟩) := by
  intro qs
  induction qs with
  | nil => exact ⟨[], rfl, rfl, by intro i hi; simp at hi⟩
  | cons q rest ih =>
    obtain ⟨outs, hb, hlen, hget⟩ := ih
    obtain ⟨r, hr⟩ := htot q
    have hfv : ∃ w, findValue h st q = some w := by
      unfold findValue
      rw [hr]
      cases r with
      | found i => exact ⟨st.valAt i, rfl⟩
      | nf => exact ⟨st.evs, rfl⟩
    obtain ⟨w, hw⟩ := hfv
    refine ⟨w :: outs, ?_, by simp [hlen], ?_⟩
    · simp only [bulkFind, hw, hb]
    · intro i hi ho
      cases i with
      | zero => exact hw
      | succ j =>
        have hj : j < rest.length := by simpa using hi
        have ho' : j < outs.length := by simpa using ho
        exact hget j hj ho'

/-! ## Agreement of the find and contains probes -/

lemma containsLoop_eq_findLoop {V : Type} (st : MapState V) (k : Nat) :
    ∀ fuel i, containsLoop st k i fuel =
      (findLoop st k i fuel).map FindRes.isFound := by
  intro fuel
  induction fuel with
  | zero => intro i; rfl
  | succ f ih =>
    intro i
    by_cases h1 : st.keyAt i = k
    · simp [containsLoop, findLoop, if_pos h1, FindRes.isFound]
    · by_cases h2 : st.keyAt i = st.sentinel
      · simp [containsLoop, findLoop, if_neg h1, if_pos h2, FindRes.isFound]
      · simp only [containsLoop, findLoop, if_neg h1, if_neg h2]
        exact ih _

/-! ## Storage accesses of the lookup probes -/

lemma findLoopA_fst {V : Type} (st : MapState V) (k : Nat) :
    ∀ fuel i, (findLoopA st k i fuel).1 = findLoop st k i fuel := by
  intro fuel
  induction fuel with
  | zero => intro i; rfl
  | succ f ih =>
    intro i
    by_cases h1 : st.keyAt i = k
    · simp [findLoopA, findLoop, if_pos h1]
    · by_cases h2 : st.keyAt i = st.sentinel
      · simp [findLoopA, findLoop, if_neg h1, if_pos h2]
      · simp only [findLoopA, findLoop, if_neg h1, if_neg h2]
        exact ih _

lemma containsLoopA_fst {V : Type} (st : MapState V) (k : Nat) :
    ∀ fuel i, (containsLoopA st k i fuel).1 = containsLoop st k i fuel := by
  intro fuel
  induction fuel with
  | zero => intro i; rfl
  | succ f ih =>
    intro i
    by_cases h1 : st.keyAt i = k
    · simp [containsLoopA, containsLoop, if_pos h1]
    · by_cases h2 : st.keyAt i = st.sentinel
      · simp [containsLoopA, containsLoop, if_neg h1, if_pos h2]
      · simp only [containsLoopA, containsLoop, if_neg h1, if_neg h2]
        exact ih _

lemma findLoopA_replay {V : Type} (st st0 : MapState V) (k : Nat) :
    ∀ fuel i, List.foldl runAccess st0 (findLoopA st k i fuel).2 = st0 := by
  intro fuel
  induction fuel with
  | zero => intro i; rfl
  | succ f ih =>
    intro i
    by_cases h1 : st.keyAt i = k
    · simp [findLoopA, if_pos h1, runAccess]
    · by_cases h2 : st.keyAt i = st.sentinel
      · simp [findLoopA, if_neg h1, if_pos h2, runAccess]
      · simp only [findLoopA, if_neg h1, if_neg h2, List.foldl_cons]
        exact ih _

lemma containsLoopA_replay {V : Type} (st st0 : MapState V) (k : Nat) :
    ∀ fuel i, List.foldl runAccess st0 (containsLoopA st k i fuel).2 = st0 := by
  intro fuel
  induction fuel with
  | zero => intro i; rfl
  | succ f ih =>
    intro i
    by_cases h1 : st.keyAt i = k
    · simp [containsLoopA, if_pos h1, runAccess]
    · by_cases h2 : st.keyAt i = st.sentinel
      · simp [containsLoopA, if_neg h1, if_pos h2, runAccess]
      · simp only [containsLoopA, if_neg h1, if_neg h2, List.foldl_cons]
        exact ih _

lemma findLoopA_loads {V : Type} (st : MapState V) (k : Nat) :
    ∀ fuel i a, a ∈ (findLoopA st k i fuel).2 → ∃ j, a = SlotAccess.load j := by
  intro fuel
  induction fuel with
  | zero => intro i a ha; simp [findLoopA] at ha
  | succ f ih =>
    intro i a ha
    by_cases h1 : st.keyAt i = k
    · simp [findLoopA, if_pos h1] at ha
      exact ⟨i, ha⟩
    · by_cases h2 : st.keyAt i = st.sentinel
      · simp [findLoopA, if_neg h1, if_pos h2] at ha
        exact ⟨i, ha⟩
      · simp only [findLoopA, if_neg h1, if_neg h2, List.mem_cons] at ha
        rcases ha with ha | ha
        · exact ⟨i, ha⟩
        · exact ih _ a ha

lemma containsLoopA_loads {V : Type} (st : MapState V) (k : Nat) :
    ∀ fuel i a, a ∈ (containsLoopA st k i fuel).2 →
      ∃ j, a = SlotAccess.load j := by
  intro fuel
  induction fuel with
  | zero => intro i a ha; simp [containsLoopA] at ha
  | succ f ih =>
    intro i a ha
    by_cases h1 : st.keyAt i = k
    · simp [containsLoopA, if_pos h1] at ha
      exact ⟨i, ha⟩
    · by_cases h2 : st.keyAt i = st.sentinel
      · simp [containsLoopA, if_neg h1, if_pos h2] at ha
        exact ⟨i, ha⟩
      · simp only [containsLoopA, if_neg h1, if_neg h2, List.mem_cons] at ha
        rcases ha with ha | ha
        · exact ⟨i, ha⟩
        · exact ih _ a ha

/-! ## Custom operator and backoff lemmas -/

lemma customOpApply_eq {V : Type} (op : V → V → V) :
    ∀ (intf : List V) (slot v : V),
      customOpApply op intf slot v =
        (intf.getLastD slot, op (intf.getLastD slot) v) := by
  intro intf
  induction intf with
  | nil => intro slot v; rfl
  | cons w rest ih =>
    intro slot v
    rw [List.getLastD_cons]
    exact ih w v

lemma backoffDelay_bound {base maxD : Nat} (hb : 0 < base)
    (hbm : base ≤ maxD) : ∀ n, backoffDelay base maxD n < 2 * maxD := by
  intro n
  induction n with
  | zero => show base < 2 * maxD; omega
  | succ n ih =>
    show (if backoffDelay base maxD n < maxD then
        backoffDelay base maxD n * 2 % two32
      else backoffDelay base maxD n) < 2 * maxD
    by_cases hlt : backoffDelay base maxD n < maxD
    · rw [if_pos hlt]
      calc backoffDelay base maxD n * 2 % two32
          ≤ backoffDelay base maxD n * 2 := Nat.mod_le _ _
        _ < 2 * maxD := by omega
    · rw [if_neg hlt]; exact ih

/-! ## Byte-wise versus vectorized comparison lemmas -/

lemma cudaMemcmp_eq_zero_iff :
    ∀ (size : Nat) (lhs rhs : List Nat), size ≤ lhs.length →
    size ≤ rhs.length →
    (cudaMemcmp lhs rhs size = 0 ↔ lhs.take size = rhs.take size) := by
  intro size
  induction size with
  | zero => intro lhs rhs _ _; simp [cudaMemcmp]
  | succ n ih =>
    intro lhs rhs hl hr
    cases lhs with
    | nil => simp at hl
    | cons l ls =>
      cases rhs with
      | nil => simp at hr
      | cons r rs =>
        simp only [cudaMemcmp, List.take_succ_cons, List.cons.injEq]
        rcases Nat.lt_trichotomy l r with h1 | h1 | h1
        · rw [if_pos h1]
          constructor
          · intro hc; norm_num at hc
          · rintro ⟨hlr, -⟩; omega
        · subst h1
          rw [if_neg (lt_irrefl l), if_neg (lt_irrefl l)]
          rw [ih ls rs (by simpa using hl) (by simpa using hr)]
          simp
        · rw [if_neg (by omega), if_pos h1]
          constructor
          · intro hc; norm_num at hc
          · rintro ⟨hlr, -⟩; omega

lemma leVal_inj :
    ∀ (xs ys : List Nat), xs.length = ys.length →
    (∀ b, b ∈ xs → b < 256) → (∀ b, b ∈ ys → b < 256) →
    (leVal xs = leVal ys ↔ xs = ys) := by
  intro xs
  induction xs with
  | nil =>
    intro ys hlen _ _
    cases ys with
    | nil => simp
    | cons y ys2 => simp at hlen
  | cons x xs2 ih =>
    intro ys hlen hx hy
    cases ys with
    | nil => simp at hlen
    | cons y ys2 =>
      simp only [leVal, List.cons.injEq]
      have hx0 : x < 256 := hx x (by simp)
      have hy0 : y < 256 := hy y (by simp)
      constructor
      · intro heq
        have hxy : x = y := by omega
        have htail : leVal xs2 = leVal ys2 := by omega
        exact ⟨hxy, (ih ys2 (by simpa using hlen)
          (fun b hb => hx b (by simp [hb]))
          (fun b hb => hy b (by simp [hb]))).mp htail⟩
      · rintro ⟨rfl, rfl⟩
        rfl

lemma compareVec_eq_zero_iff (k : Nat) (hk : 0 < k) :
    ∀ size, k ∣ size → ∀ (lhs rhs : List Nat), size ≤ lhs.length →
    size ≤ rhs.length → (∀ b, b ∈ lhs → b < 256) →
    (∀ b, b ∈ rhs → b < 256) →
    (compareVec k lhs rhs size = 0 ↔ lhs.take size = rhs.take size) := by
  intro size
  induction size using Nat.strong_induction_on with
  | _ size ih =>
    intro hdvd lhs rhs hl hr hbl hbr
    by_cases hs : size = 0
    · subst hs; simp [compareVec]
    · have hks : k ≤ size := Nat.le_of_dvd (Nat.pos_of_ne_zero hs) hdvd
      rw [compareVec]
      rw [dif_neg hs, dif_neg (by omega : ¬ k = 0)]
      have hwiff : leVal (lhs.take k) = leVal (rhs.take k) ↔
          lhs.take k = rhs.take k := by
        apply leVal_inj
        · rw [List.length_take, List.length_take]; omega
        · exact fun b hb => hbl b (List.take_subset _ _ hb)
        · exact fun b hb => hbr b (List.take_subset _ _ hb)
      have htake : lhs.take size = rhs.take size ↔
          lhs.take k = rhs.take k ∧
          (lhs.drop k).take (size - k) = (rhs.drop k).take (size - k) := by
        constructor
        · intro hall
          constructor
          · have := congrArg (List.take k) hall
            rwa [List.take_take, List.take_take,
              min_eq_left hks] at this
          · have := congrArg (List.drop k) hall
            rwa [List.drop_take, List.drop_take] at this
        · rintro ⟨h1, h2⟩
          rw [show size = k + (size - k) from by omega, List.take_add,
            List.take_add, h1, h2]
      rcases Nat.lt_trichotomy (leVal (lhs.take k)) (leVal (rhs.take k))
        with h1 | h1 | h1
      · rw [if_pos h1]
        constructor
        · intro hc; norm_num at hc
        · intro ht
          exact absurd (hwiff.mpr (htake.mp ht).1) (by omega)
      · rw [if_neg (by omega), if_neg (by omega)]
        have hrec := ih (size - k) (by omega) (Nat.dvd_sub' hdvd dvd_rfl) (lhs.drop k)
          (rhs.drop k) (by rw [List.length_drop]; omega)
          (by rw [List.length_drop]; omega)
          (fun b hb => hbl b (List.drop_subset _ _ hb))
          (fun b hb => hbr b (List.drop_subset _ _ hb))
        rw [hrec, htake]
        have htk := hwiff.mp h1
        simp [htk]
      · rw [if_neg (by omega), if_pos h1]
        constructor
        · intro hc; norm_num at hc
        · intro ht
          exact absurd (hwiff.mpr (htake.mp ht).1) (by omega)


/-! ## Claim theorems -/

/-- C1: Reduction correctness — for every finite list of (key, value) pairs
inserted in any order into a map constructed with sufficient capacity
(fewer distinct keys than slots) and a sentinel key not among the inserted
keys, a subsequent find of `k` returns the fold of the reduction operator
over all values inserted with key `k`, which is the operator's identity
element when `k` was never inserted. -/
theorem claim_C1_reduction_correctness {V : Type} (op : ReductionOp V)
    (h : Nat → Nat) (c sent : Nat) (pairs : List (Nat × V)) (k : Nat)
    (hc : 0 < c) (hsent : ¬ sent ∈ keysOf pairs)
    (hcap : (keysOf pairs).toFinset.card < c) (hk : k ≠ sent) :
    ∃ stf flags,
      buildF op h (initState V c sent op) pairs = some (stf, flags) ∧
      findValue h stf k =
        some ((valuesOf k pairs).foldl op.comb op.identity) := by
  have hinv0 : Inv op h [] (initState V c sent op) := by
    refine ⟨rfl, by simp [keysOf], ?_, ?_, ?_, ?_, ?_⟩
    · intro i _ hne; exact absurd rfl hne
    · intro k2 hk2; simp [keysOf] at hk2
    · intro i j _ _ hne _; exact absurd rfl hne
    · intro i _ hne; exact absurd rfl hne
    · intro i _ hne; exact absurd rfl hne
  have hsent2 : ∀ q, q ∈ keysOf pairs →
      q ≠ (initState V c sent op).sentinel :=
    fun q hq hqe => hsent ((show q = sent from hqe) ▸ hq)
  have hcard : (keysOf (([] : List (Nat × V)) ++ pairs)).toFinset.card <
      (initState V c sent op).cap := by simpa using hcap
  obtain ⟨stf, flags, hbuild, hinvf, hcapf, hsentf, _⟩ :=
    buildF_spec op h pairs [] (initState V c sent op) hinv0 hc hsent2 hcard
  refine ⟨stf, flags, hbuild, ?_⟩
  rw [List.nil_append] at hinvf
  have hcf : 0 < stf.cap := by rw [hcapf]; exact hc
  have hsf : stf.sentinel = sent := hsentf
  by_cases hmem : k ∈ keysOf pairs
  · obtain ⟨i, hi, hkey⟩ := hinvf.ins_occ k hmem
    have hfind := find_present hinvf hcf (by rw [hsf]; exact hk) hi hkey
    have hfv : findValue h stf k = some (stf.valAt i) := by
      unfold findValue
      rw [hfind]
    rw [hfv, hinvf.vals i hi (by rw [hkey, hsf]; exact hk), hkey]
  · have hempty : ∃ e, e < stf.cap ∧ stf.keyAt e = stf.sentinel := by
      apply exists_empty hinvf
      rw [hcapf]
      exact hcap
    have hfind := find_absent hinvf hcf (by rw [hsf]; exact hk) hmem hempty
    have hfv : findValue h stf k = some stf.evs := by
      unfold findValue
      rw [hfind]
    rw [hfv, valuesOf_nil_of_not_mem hmem, hinvf.evs_eq]
    rfl

/-- C1 witness: inserting (0,10) and (0,5) with the shipped add operator
into a 3-slot map with sentinel 9 and finding key 0 yields the fold 15. -/
theorem claim_C1_witness :
    ∃ stf flags,
      buildF reduceAdd (fun q => q) (initState Nat 3 9 reduceAdd)
        [(0, 10), (0, 5)] = some (stf, flags) ∧
      findValue (fun q => q) stf 0 =
        some ((valuesOf 0 [(0, 10), (0, 5)]).foldl reduceAdd.comb
          reduceAdd.identity) :=
  claim_C1_reduction_correctness reduceAdd (fun q => q) 3 9
    [(0, 10), (0, 5)] 0 (by decide) (by decide) (by decide) (by decide)

/-- C2: New-key signal — in a bulk insert, the success flag of the i-th
insert is true exactly when its key does not occur among the keys of the
earlier inserts: true once per distinct key (the initial claim of a slot)
and false for every later insert of that key. -/
theorem claim_C2_new_key_signal {V : Type} (op : ReductionOp V)
    (h : Nat → Nat) (c sent : Nat) (pairs : List (Nat × V))
    (hc : 0 < c) (hsent : ¬ sent ∈ keysOf pairs)
    (hcap : (keysOf pairs).toFinset.card < c) :
    ∃ stf flags,
      buildF op h (initState V c sent op) pairs = some (stf, flags) ∧
      flags.length = pairs.length ∧
      ∀ i (hi : i < pairs.length) (hf : i < flags.length),
        (flags.get ⟨i, hf⟩ = true ↔
          ¬ (pairs.get ⟨i, hi⟩).1 ∈ keysOf (pairs.take i)) := by
  have hinv0 : Inv op h [] (initState V c sent op) := by
    refine ⟨rfl, by simp [keysOf], ?_, ?_, ?_, ?_, ?_⟩
    · intro i _ hne; exact absurd rfl hne
    · intro k2 hk2; simp [keysOf] at hk2
    · intro i j _ _ hne _; exact absurd rfl hne
    · intro i _ hne; exact absurd rfl hne
    · intro i _ hne; exact absurd rfl hne
  have hsent2 : ∀ q, q ∈ keysOf pairs →
      q ≠ (initState V c sent op).sentinel :=
    fun q hq hqe => hsent ((show q = sent from hqe) ▸ hq)
  have hcard : (keysOf (([] : List (Nat × V)) ++ pairs)).toFinset.card <
      (initState V c sent op).cap := by simpa using hcap
  obtain ⟨stf, flags, hbuild, _, _, _, hflags⟩ :=
    buildF_spec op h pairs [] (initState V c sent op) hinv0 hc hsent2 hcard
  subst hflags
  refine ⟨stf, expectedFlags (keysOf ([] : List (Nat × V))) pairs, hbuild,
    expectedFlags_length pairs _, ?_⟩
  intro i hi hf
  have hget := expectedFlags_get pairs [] i hi (by exact hf)
  rw [List.nil_append] at hget
  exact hget

/-- C2 witness: inserting keys 0, 0, 1 in order gives flags true, false,
true: success exactly at the first occurrence of each key. -/
theorem claim_C2_witness :
    ∃ stf flags,
      buildF reduceAdd (fun q => q) (initState Nat 4 9 reduceAdd)
        [(0, 10), (0, 5), (1, 7)] = some (stf, flags) ∧
      flags.length = [(0, 10), (0, 5), (1, 7)].length ∧
      ∀ i (hi : i < [(0, 10), (0, 5), (1, 7)].length)
        (hf : i < flags.length),
        (flags.get ⟨i, hf⟩ = true ↔
          ¬ ([(0, 10), (0, 5), (1, 7)].get ⟨i, hi⟩).1 ∈
            keysOf ([(0, 10), (0, 5), (1, 7)].take i)) :=
  claim_C2_new_key_signal reduceAdd (fun q => q) 4 9
    [(0, 10), (0, 5), (1, 7)] (by decide) (by decide) (by decide)

/-- C3: Absent-key lookup value — the `device_view_base` constructor sets
the empty-value sentinel to `ReductionOp::identity` for every constructed
view, and a bulk find writes exactly the operator's identity element at
every output position whose query key is not present in the map. -/
theorem claim_C3_absent_key_identity {V : Type} (op : ReductionOp V)
    (h : Nat → Nat) (c sent : Nat) (pairs : List (Nat × V))
    (qs : List Nat) (i : Nat)
    (hc : 0 < c) (hsent : ¬ sent ∈ keysOf pairs)
    (hcap : (keysOf pairs).toFinset.card < c)
    (hi : i < qs.length) (habs : ¬ qs.get ⟨i, hi⟩ ∈ keysOf pairs)
    (hqk : qs.get ⟨i, hi⟩ ≠ sent) :
    (∀ cap2 eks, (mkDeviceViewBase V op cap2 eks).emptyValueSentinel =
      op.identity) ∧
    ∃ stf flags outs,
      buildF op h (initState V c sent op) pairs = some (stf, flags) ∧
      bulkFind h stf qs = some outs ∧
      ∃ ho : i < outs.length, outs.get ⟨i, ho⟩ = op.identity := by
  refine ⟨fun _ _ => rfl, ?_⟩
  have hinv0 : Inv op h [] (initState V c sent op) := by
    refine ⟨rfl, by simp [keysOf], ?_, ?_, ?_, ?_, ?_⟩
    · intro j _ hne; exact absurd rfl hne
    · intro k2 hk2; simp [keysOf] at hk2
    · intro j j2 _ _ hne _; exact absurd rfl hne
    · intro j _ hne; exact absurd rfl hne
    · intro j _ hne; exact absurd rfl hne
  have hsent2 : ∀ q, q ∈ keysOf pairs →
      q ≠ (initState V c sent op).sentinel :=
    fun q hq hqe => hsent ((show q = sent from hqe) ▸ hq)
  have hcard : (keysOf (([] : List (Nat × V)) ++ pairs)).toFinset.card <
      (initState V c sent op).cap := by simpa using hcap
  obtain ⟨stf, flags, hbuild, hinvf, hcapf, hsentf, _⟩ :=
    buildF_spec op h pairs [] (initState V c sent op) hinv0 hc hsent2 hcard
  rw [List.nil_append] at hinvf
  have hcf : 0 < stf.cap := by rw [hcapf]; exact hc
  have hsf : stf.sentinel = sent := hsentf
  have hempty : ∃ e, e < stf.cap ∧ stf.keyAt e = stf.sentinel := by
    apply exists_empty hinvf
    rw [hcapf]
    exact hcap
  have htot : ∀ q, ∃ r, findOp h stf q = some r :=
    fun q => find_total hcf h q hempty
  obtain ⟨outs, hbulk, hlen, hget⟩ := bulkFind_spec h stf htot qs
  have ho : i < outs.length := by omega
  refine ⟨stf, flags, outs, hbuild, hbulk, ho, ?_⟩
  have hfind := find_absent hinvf hcf (by rw [hsf]; exact hqk) habs hempty
  have hval : findValue h stf (qs.get ⟨i, hi⟩) = some op.identity := by
    have hfv : findValue h stf (qs.get ⟨i, hi⟩) = some stf.evs := by
      unfold findValue
      rw [hfind]
    rw [hfv, hinvf.evs_eq]
  have hq := hget i hi ho
  rw [hval] at hq
  exact (Option.some_inj.mp hq).symm

/-- C3 witness: with key 0 inserted, a bulk find of the absent key 2
writes the add-operator identity 0 at that output position. -/
theorem claim_C3_witness :
    (∀ cap2 eks,
      (mkDeviceViewBase Nat reduceAdd cap2 eks).emptyValueSentinel =
        reduceAdd.identity) ∧
    ∃ stf flags outs,
      buildF reduceAdd (fun q => q) (initState Nat 3 9 reduceAdd)
        [(0, 10)] = some (stf, flags) ∧
      bulkFind (fun q => q) stf [2] = some outs ∧
      ∃ ho : 0 < outs.length, outs.get ⟨0, ho⟩ = reduceAdd.identity :=
  claim_C3_absent_key_identity reduceAdd (fun q => q) 3 9 [(0, 10)] [2] 0
    (by decide) (by decide) (by decide) (by decide) (by decide) (by decide)

/-- C4: Find/contains agreement — for every map state and key, the
contains probe returns exactly whether the find probe returns a slot
different from the end marker. -/
theorem claim_C4_contains_find_agreement {V : Type} (st : MapState V)
    (h : Nat → Nat) (k : Nat) :
    containsOp h st k = (findOp h st k).map FindRes.isFound :=
  containsLoop_eq_findLoop st k st.cap (h k % st.cap)

/-- C5 counterexample: a cooperative-group probing unit with rank 1 and a
hash value of 2^32-1 starts at slot 0 of a 3-slot table because the
32-bit sum wraps, not at the claimed (h(k)+r) mod c = 1. -/
theorem claim_C5_counterexample :
    initialSlotIdxCG 4294967295 1 3 ≠ (4294967295 + 1) % 3 := by decide

/-- C5 (amended): the scalar probe starts at h(k) mod c and advances from
slot i to (i+1) mod c; the cooperative-group probe computes its slot
indices in 32-bit arithmetic, so unit r starts at ((h(k)+r) mod 2^32)
mod c and advances from i to ((i mod 2^32 + g) mod 2^32) mod c, which
coincide with the claimed (h(k)+r) mod c and (i+g) mod c exactly when
h(k)+r and i+g are below 2^32. -/
theorem claim_C5_probe_sequence_amended (hk r g c i : Nat)
    (hi : i < c) (hcg1 : hk + r < two32) (hcg2 : i + g < two32) :
    initialSlotIdx hk c = hk % c ∧
    nextSlotIdx i c = (i + 1) % c ∧
    initialSlotIdxCG hk r c = (hk + r) % c ∧
    nextSlotIdxCG i g c = (i + g) % c := by
  refine ⟨rfl, ?_, ?_, ?_⟩
  · unfold nextSlotIdx
    by_cases h1 : i + 1 < c
    · rw [if_pos h1, Nat.mod_eq_of_lt h1]
    · rw [if_neg h1, show i + 1 = c from by omega, Nat.mod_self]
  · unfold initialSlotIdxCG
    rw [Nat.mod_eq_of_lt hcg1]
  · unfold nextSlotIdxCG
    rw [Nat.mod_eq_of_lt (show i < two32 from by omega),
      Nat.mod_eq_of_lt hcg2]

/-- C5 witness: at hash 5, rank 1, group size 2, capacity 3 and slot 2
the amended probe equations hold concretely. -/
theorem claim_C5_witness :
    initialSlotIdx 5 3 = 5 % 3 ∧
    nextSlotIdx 2 3 = (2 + 1) % 3 ∧
    initialSlotIdxCG 5 1 3 = (5 + 1) % 3 ∧
    nextSlotIdxCG 2 2 3 = (2 + 2) % 3 :=
  claim_C5_probe_sequence_amended 5 1 2 3 2 (by decide) (by decide)
    (by decide)

/-- C6: Combine returns the previous value — each shipped operator's
apply returns the value the slot held immediately before the combine and
leaves the slot holding the operator applied to that value and the
incoming one; for custom_op the value immediately before the successful
compare-and-swap is the last interference value (the original slot value
when no other unit intervened). -/
theorem claim_C6_apply_returns_previous {V : Type} (op : V → V → V)
    (slot v : Nat) (intf : List V) (s x : V) :
    reduceAddApply slot v = (slot, reduceAdd.comb slot v) ∧
    reduceSubApply slot v = (slot, reduceSub.comb slot v) ∧
    reduceMinApply slot v = (slot, reduceMin.comb slot v) ∧
    reduceMaxApply slot v = (slot, reduceMax.comb slot v) ∧
    customOpApply op intf s x =
      (intf.getLastD s, op (intf.getLastD s) x) :=
  ⟨rfl, rfl, rfl, rfl, customOpApply_eq op intf s x⟩

/-- C7 counterexample: with BackoffBaseDelay 8 and BackoffMaxDelay 12,
the delay after the second failed attempt is 16, exceeding the ceiling
even though 0 < 8 and 8 ≤ 12. -/
theorem claim_C7_counterexample :
    0 < 8 ∧ 8 ≤ 12 ∧ backoffDelay 8 12 1 = 16 ∧
    ¬ backoffDelay 8 12 1 ≤ 12 := by decide

/-- C7 (amended): the delay starts at BackoffBaseDelay and after each
failed attempt doubles (as a 32-bit value) only while still below
BackoffMaxDelay; every delay stays strictly below 2 * BackoffMaxDelay,
but it can exceed BackoffMaxDelay itself when BackoffMaxDelay is not
BackoffBaseDelay times a power of two. -/
theorem claim_C7_backoff_amended (base maxD : Nat) (hb : 0 < base)
    (hbm : base ≤ maxD) (n : Nat) :
    backoffDelay base maxD 0 = base ∧
    backoffDelay base maxD (n + 1) =
      (if backoffDelay base maxD n < maxD then
        backoffDelay base maxD n * 2 % two32
      else backoffDelay base maxD n) ∧
    backoffDelay base maxD n < 2 * maxD :=
  ⟨rfl, rfl, backoffDelay_bound hb hbm n⟩

/-- C7 witness: with the default parameters 8 and 256 the amended
statement holds concretely after five failed attempts. -/
theorem claim_C7_witness :
    backoffDelay 8 256 0 = 8 ∧
    backoffDelay 8 256 6 =
      (if backoffDelay 8 256 5 < 256 then backoffDelay 8 256 5 * 2 % two32
      else backoffDelay 8 256 5) ∧
    backoffDelay 8 256 5 < 2 * 256 :=
  claim_C7_backoff_amended 8 256 (by decide) (by decide) 5

/-- C8: Lookup is read-only — the instrumented find and contains probes
compute the same results as the actual probes, and replaying every
storage access they perform onto any slot storage leaves it unchanged
(the probes issue only loads). -/
theorem claim_C8_lookup_readonly {V : Type} (st st0 : MapState V)
    (h : Nat → Nat) (k : Nat) :
    (findLoopA st k (h k % st.cap) st.cap).1 = findOp h st k ∧
    List.foldl runAccess st0 (findLoopA st k (h k % st.cap) st.cap).2 =
      st0 ∧
    (containsLoopA st k (h k % st.cap) st.cap).1 = containsOp h st k ∧
    List.foldl runAccess st0
      (containsLoopA st k (h k % st.cap) st.cap).2 = st0 :=
  ⟨findLoopA_fst st k st.cap _, findLoopA_replay st st0 k st.cap _,
    containsLoopA_fst st k st.cap _, containsLoopA_replay st st0 k st.cap _⟩

/-- C9 counterexample: buffers at 2-aligned addresses reaching the
alignment-2 dispatch branch, holding bytes [1,0] and [0,2]: the
vectorized path returns -1 while the byte-wise reference returns 1 —
opposite signs. -/
theorem claim_C9_counterexample :
    memcmpDispatch 1 2 2 [1, 0] [0, 2] 2 = some (-1) ∧
    cudaMemcmp [1, 0] [0, 2] 2 = 1 := by
  constructor
  · rw [show memcmpDispatch 1 2 2 [1, 0] [0, 2] 2 =
        some (compareVec 2 [1, 0] [0, 2] 2) from by
      simp [memcmpDispatch, determineRuntimeAlignment, ffs]]
    rw [compareVec]
    norm_num [leVal]
  · decide

/-- C9 (amended): each vectorized compare path agrees with the byte-wise
reference on equality — it returns 0 exactly when __cuda_memcmp returns
0 — on the inputs of its dispatch branch (size a multiple of the word
width, within bounds, byte-valued buffers); the sign of a nonzero result
can differ, because little-endian words invert the significance order of
the bytes. -/
theorem claim_C9_memcmp_amended (k size : Nat) (lhs rhs : List Nat)
    (hk : 0 < k) (hdvd : k ∣ size) (hl : size ≤ lhs.length)
    (hr : size ≤ rhs.length) (hbl : ∀ b, b ∈ lhs → b < 256)
    (hbr : ∀ b, b ∈ rhs → b < 256) :
    (compareVec k lhs rhs size = 0 ↔ cudaMemcmp lhs rhs size = 0) := by
  rw [compareVec_eq_zero_iff k hk size hdvd lhs rhs hl hr hbl hbr,
    cudaMemcmp_eq_zero_iff size lhs rhs hl hr]

/-- C9 witness: for the two-byte path on [1,0] versus [0,2] both sides of
the amended equivalence are nonzero, so the equivalence holds. -/
theorem claim_C9_witness :
    (compareVec 2 [1, 0] [0, 2] 2 = 0 ↔ cudaMemcmp [1, 0] [0, 2] 2 = 0) :=
  claim_C9_memcmp_amended 2 2 [1, 0] [0, 2] (by decide) (by decide)
    (by decide) (by decide) (by decide) (by decide)

/-- C10: the primary (non-specialized) memcmp_vectorized_impl compare
evaluates the byte-wise comparison but discards it and falls off the end
of the non-void function, returning no well-defined int: at lhs = [5],
rhs = [5], size = 1 (a call reached through the alignment-1 dispatch
case) the reference comparison is 0 yet the function produces no value. -/
theorem claim_C10_missing_return :
    primaryCompare [5] [5] 1 = none ∧ cudaMemcmp [5] [5] 1 = 0 ∧
    memcmpDispatch 2 1 1 [5] [5] 1 = none := by
  refine ⟨rfl, by decide, ?_⟩
  simp [memcmpDispatch, determineRuntimeAlignment, ffs, primaryCompare]

end Cuco
